import Mathlib

/-!
# Verification of the `arkman` configuration dialect engine

A shallow embedding of the core of `paqx/arkman`: the custom INI-style
parser `ArkConfig` (`src/ark_config/config.py`), its section type
`ArkConfigSection` (`src/ark_config/section.py`), and the older-generation
complex value `ItemEntry` (`src/complex_values.py`).

Modelling conventions:

* Python strings are modelled as `List Char` (`Str`).  Whitespace is the
  ASCII whitespace set stripped by Python's `str.strip()`.
* Python `int` is `Int` (arbitrary precision, as in CPython).
* Python `float` is modelled by its exact decimal value: every float
  literal accepted by the engine's `FLOAT_RE` is an exact decimal, kept as
  a pair `(m, e)` for `m / 10^e` in lowest decimal terms (`normDec`), so
  equal Python floats have equal representations.  (CPython rounds to
  binary64; no claim proved below depends on that rounding.)
* Regex matches (`SECTION_RE`, `OPTION_RE`, `ENV_RE`, `BOOL_RE`, `INT_RE`,
  `FLOAT_RE`) are translated to character-list functions.  Each translation
  is commented with the derivation from the regex.  The source applies the
  regexes to single lines produced by `readlines()`/`strip()`, which never
  contain a newline, so the `.`-does-not-match-newline subtlety of `re` is
  vacuous on all reachable inputs.
* The value domain covered by the embedding is the primitive fragment
  (bool/int/float/str and lists of these).  `dict`- and `ComplexValue`-
  valued options of `ArkConfigSection.__setitem__` are outside this
  fragment; the branch of `__setitem__` that consults `COMPLEX_VALUE_MAP`
  is embedded faithfully restricted to this fragment (the only elements it
  accepts unchanged are strings; anything else raises `ValueError`).
-/

/-- Python strings, as character lists. -/
abbrev Str := List Char

/-- The character class stripped by Python's `str.strip()` (ASCII part;
the engine's inputs are INI text where non-ASCII whitespace does not occur). -/
def pyIsSpace (c : Char) : Bool :=
  c = ' ' || c = '\t' || c = '\n' || c = '\r' || c = '\x0b' || c = '\x0c'

/-- Python `str.strip()`. -/
def pyStrip (s : Str) : Str :=
  ((s.dropWhile pyIsSpace).reverse.dropWhile pyIsSpace).reverse

/-- Split a text on newline characters (model of the line decomposition
performed by `readlines()`; `read` strips every line, so the trailing empty
line this produces for newline-terminated text is skipped as blank). -/
def splitNl : Str → List Str
  | [] => [[]]
  | c :: rest =>
    if c = '\n' then [] :: splitNl rest
    else
      match splitNl rest with
      | [] => [[c]]
      | l :: ls => (c :: l) :: ls

/-- Join lines with `'\n'` (Python `'\n'.join`). -/
def joinNl : List Str → Str
  | [] => []
  | [l] => l
  | l :: ls => l ++ '\n' :: joinNl ls

/-- First-match lookup in an association list (Python `dict` read). -/
def lookupA {α : Type} (l : List (Str × α)) (k : Str) : Option α :=
  match l with
  | [] => none
  | (k', v) :: rest => if k' = k then some v else lookupA rest k

/-- Replace the value at the first occurrence of key `k`, keeping its
position (Python `dict` write to an existing key). -/
def updateA {α : Type} (l : List (Str × α)) (k : Str) (v : α) : List (Str × α) :=
  match l with
  | [] => []
  | (k', v') :: rest => if k' = k then (k', v) :: rest else (k', v') :: updateA rest k v

/-- Key membership in an association list. -/
def hasKey {α : Type} (l : List (Str × α)) (k : Str) : Bool :=
  (lookupA l k).isSome

/-! ## Primitive values (`ArkConfigSection._parse_value`) -/

/-- A parsed primitive option value: Python `bool`, `int`, `float` or `str`.
A float is the pair `(m, e)` denoting `m / 10^e`, in lowest decimal terms. -/
inductive Item where
  | iB (b : Bool)
  | iI (n : Int)
  | iF (v : Int × Nat)
  | iS (s : Str)
  deriving DecidableEq, Repr

/-- A stored section value: a scalar or a Python list. -/
inductive PyVal where
  | one (x : Item)
  | many (xs : List Item)
  deriving DecidableEq, Repr

instance : Inhabited Item := ⟨Item.iB false⟩

instance : Inhabited PyVal := ⟨PyVal.one (Item.iB false)⟩

/-- ASCII decimal digit test (`\d` of the source regexes, ASCII range). -/
def isDig (c : Char) : Bool := '0' ≤ c && c ≤ '9'

/-- Numeric value of a digit character. -/
def digVal (c : Char) : Nat := c.toNat - '0'.toNat

/-- Value of a digit string read left to right (Python `int(...)` on the
digits matched by `INT_RE`). -/
def digsVal (s : Str) : Nat := s.foldl (fun a c => 10 * a + digVal c) 0

/-- Strip one optional leading sign (`[+-]?` of `INT_RE`/`FLOAT_RE`);
returns `(negative, rest)`. -/
def splitSign : Str → Bool × Str
  | '+' :: r => (false, r)
  | '-' :: r => (true, r)
  | s => (false, s)

/-- `BOOL_RE`: `^(true|false)$` with `re.IGNORECASE`.  A whole-string
case-insensitive match against the two literals. -/
def boolTok (t : Str) : Option Bool :=
  if t.map Char.toLower = "true".toList then some true
  else if t.map Char.toLower = "false".toList then some false
  else none

/-- `INT_RE`: `^[+-]?\d+$`, with the value Python's `int()` gives the match. -/
def intTok (t : Str) : Option Int :=
  let s := splitSign t
  if s.2 ≠ [] && s.2.all isDig then
    some (if s.1 then -(digsVal s.2 : Int) else (digsVal s.2 : Int))
  else none

/-- Lowest-decimal-terms normalization of `m / 10^e`: cancel factors of 10
(two equal Python floats such as `1.50` and `1.5` get one representation). -/
def normDec : Int → Nat → Int × Nat
  | m, 0 => (m, 0)
  | m, e + 1 => if m % 10 = 0 then normDec (m / 10) e else (m, e + 1)

/-- `FLOAT_RE`: `^[+-]?\d*\.\d+$`, with the exact decimal value of the
literal (the value CPython's `float()` rounds to binary64).  The greedy
`\d*` is `takeWhile isDig` (no backtracking can help, as `.` is not a
digit); after it the next character must be the dot and the rest of the
string must be one or more digits. -/
def floatTok (t : Str) : Option (Int × Nat) :=
  let s := splitSign t
  let rest := s.2.dropWhile isDig
  if rest.head? = some '.' then
    let fp := rest.tail
    if fp ≠ [] && fp.all isDig then
      let n : Int := (digsVal (s.2.takeWhile isDig) * 10 ^ fp.length + digsVal fp : Nat)
      some (normDec (if s.1 then -n else n) fp.length)
    else none
  else none

/-- `ArkConfigSection._parse_value`: strip, then try `BOOL_RE`, `FLOAT_RE`,
`INT_RE` in that order; fall back to the stripped string. -/
def parse_value (v : Str) : Item :=
  let t := pyStrip v
  match boolTok t with
  | some b => .iB b
  | none =>
    match floatTok t with
    | some q => .iF q
    | none =>
      match intTok t with
      | some n => .iI n
      | none => .iS t

/-! ## Rendering (Python `f"{key}={value}"` in the dump methods) -/

/-- Python `str` of a natural number (canonical decimal digits). -/
def natRepr (n : Nat) : Str := Nat.toDigits 10 n

/-- Python `str` of an `int`: a minus sign for negatives, then the digits. -/
def intRepr (n : Int) : Str := if n < 0 then '-' :: natRepr n.natAbs else natRepr n.natAbs

/-- Model of CPython `str(float)` on the embedding's exact-decimal floats
`(m, e)` in lowest decimal terms: sign, integer part, a dot, and the `e`
fraction digits (zero-padded), with `".0"` for integral values.  CPython
prints the shortest round-tripping decimal, which agrees with this on
every float whose shortest form is its exact decimal value in the
non-exponent range. -/
def floatRepr (v : Int × Nat) : Str :=
  let sgn : Str := if v.1 < 0 then ['-'] else []
  let n := v.1.natAbs
  if v.2 = 0 then sgn ++ natRepr n ++ ['.', '0']
  else
    let fd := natRepr (n % 10 ^ v.2)
    sgn ++ natRepr (n / 10 ^ v.2) ++ '.' :: (List.replicate (v.2 - fd.length) '0' ++ fd)

/-- Python `f"{item}"` on a stored scalar (`str()` of the value). -/
def itemRender : Item → Str
  | .iB true => "True".toList
  | .iB false => "False".toList
  | .iI n => intRepr n
  | .iF v => floatRepr v
  | .iS s => s

/-! ## `ArkConfigSection` -/

/-- An `ArkConfigSection`'s backing `data`: an insertion-ordered mapping,
as an association list without duplicate keys (the operations below are
exactly the Python `dict` operations, which preserve insertion order). -/
abbrev ArkSection := List (Str × PyVal)

/-- `ArkConfigSection.COMPLEX_VALUE_MAP`'s key set. -/
def COMPLEX_VALUE_KEYS : List Str :=
  ["ConfigOverrideSupplyCrateItems", "ConfigOverrideItemMaxQuantity",
   "ConfigAddNPCSpawnEntriesContainer", "DinoSpawnWeightMultiplier"].map String.toList

/-- The element conversion `__setitem__` applies to a list bound to a
registered complex key, restricted to the primitive fragment: strings are
kept untouched; a `ComplexValue` is kept and a `dict` is converted (both
outside this fragment); any other type raises
`ValueError(f"Invalid type {type(i)} for complex value {key}")`. -/
def convertComplexElem (key : Str) (x : Item) : Except String Item :=
  match x with
  | .iS s => .ok (.iS s)
  | _ => .error ("Invalid type for complex value " ++ String.mk key)

/-- The normalization `__setitem__` performs before storing: a list bound
to a registered complex key is converted element-wise; otherwise a plain
string is classified by `_parse_value`; everything else is stored as-is. -/
def normalizeItem (key : Str) (item : PyVal) : Except String PyVal :=
  match item with
  | .many xs =>
    if COMPLEX_VALUE_KEYS.contains key then do
      let ys ← xs.mapM (convertComplexElem key)
      pure (.many ys)
    else pure (.many xs)
  | .one (.iS s) => pure (.one (parse_value s))
  | .one x => pure (.one x)

/-- `ArkConfigSection.__setitem__`: normalize the incoming value, then fold
into an existing binding (never overwriting) or append a new binding. -/
def setItem (data : ArkSection) (key : Str) (item : PyVal) : Except String ArkSection :=
  match normalizeItem key item with
  | .error e => .error e
  | .ok item =>
    match lookupA data key with
    | some existing =>
      match existing, item with
      | .many es, .many is => .ok (updateA data key (.many (es ++ is)))
      | .many es, .one x => .ok (updateA data key (.many (es ++ [x])))
      | .one e, .many is => .ok (updateA data key (.many (e :: is)))
      | .one e, .one x => .ok (updateA data key (.many [e, x]))
    | none => .ok (data ++ [(key, item)])

/-- Constructing `ArkConfigSection(d)` from a mapping: `UserDict.__init__`
runs `self[k] = v` for each pair in order. -/
def sectionFromPairs (ps : List (Str × PyVal)) : Except String ArkSection :=
  ps.foldlM (fun acc kv => setItem acc kv.1 kv.2) []

/-- The lines of `ArkConfigSection.dump`: one `key=value` line per element
for list values, else a single line. -/
def sectionDumpLines (sec : ArkSection) : List Str :=
  (sec.map (fun kv =>
    match kv.2 with
    | .many xs => xs.map (fun x => kv.1 ++ '=' :: itemRender x)
    | .one x => [kv.1 ++ '=' :: itemRender x])).flatten

/-- `ArkConfigSection.dump`: the lines joined with `'\n'`. -/
def sectionDump (sec : ArkSection) : Str := joinNl (sectionDumpLines sec)

/-! ## `ArkConfig` -/

/-- An `ArkConfig`'s backing `_config`: a `defaultdict(ArkConfigSection)`,
as an insertion-ordered association list (the `encoding` attribute plays no
role in any verified claim and is omitted). -/
abbrev ArkCfg := List (Str × ArkSection)

/-- The message of the `KeyError` raised by `ArkConfig.__getitem__`
(`f"Section '{section_name}' not found"`; `Char.ofNat 39` is the quote). -/
def keyErrorMsg (n : Str) : String :=
  String.mk ("Section ".toList ++ Char.ofNat 39 :: n ++ Char.ofNat 39 :: " not found".toList)

/-- A raw `defaultdict` lookup: a missing key inserts and returns a fresh
empty section (this models the backing store's own `__getitem__`). -/
def ddLookup (cfg : ArkCfg) (n : Str) : ArkSection × ArkCfg :=
  match lookupA cfg n with
  | some sec => (sec, cfg)
  | none => ([], cfg ++ [(n, [])])

/-- `ArkConfig.__getitem__`: an explicit membership guard raising `KeyError`
before the `defaultdict` is consulted; returns the section and the
(possibly updated) backing store. -/
def configGetItem (cfg : ArkCfg) (n : Str) : Except String (ArkSection × ArkCfg) :=
  if hasKey cfg n then .ok (ddLookup cfg n) else .error (keyErrorMsg n)

/-- `ArkConfig.__setitem__` with an already-built section: a plain `dict`
write (replace in place, or append a new entry). -/
def cfgAssign (cfg : ArkCfg) (n : Str) (sec : ArkSection) : ArkCfg :=
  if hasKey cfg n then updateA cfg n sec else cfg ++ [(n, sec)]

/-- `ArkConfig.from_dict`: assign `ArkConfigSection(section_dict)` for each
entry of the outer mapping in order. -/
def from_dict (data : List (Str × List (Str × PyVal))) : Except String ArkCfg :=
  data.foldlM (fun acc nd => do
    let sec ← sectionFromPairs nd.2
    pure (cfgAssign acc nd.1 sec)) []

/-! ### `ArkConfig.read` -/

/-- `SECTION_RE.match(line)`: the pattern `\[(?P<section_name>.+)\]` matched
at the start of the line.  The leading character must be `'['`; the greedy
`.+` then puts the group between the `'['` and the *last* `']'` of the line
(text after that `']'` is ignored, as `match` does not anchor the end); the
group must be nonempty. -/
def headerName (l : Str) : Option Str :=
  match l with
  | '[' :: rest =>
    let rr := rest.reverse
    if rr.contains ']' then
      let content := ((rr.dropWhile (fun c => c ≠ ']')).drop 1).reverse
      if content = [] then none else some content
    else none
  | _ => none

/-- `OPTION_RE.match(line)` combined with the `.strip()` calls of `read`:
the pattern `(?P<option>.*?)\s*(=)\s*(?P<value>.*)$` matches iff the line
contains `'='`; the lazy `option` group together with the surrounding
`\s*` splits at the *first* `'='`; `read` then strips the option, and
strips the value (an all-whitespace or empty value group is falsy and
replaced by the empty string, which coincides with stripping). -/
def optionMatch (l : Str) : Option (Str × Str) :=
  if l.contains '=' then
    some (pyStrip (l.takeWhile (fun c => c ≠ '=')),
          pyStrip ((l.dropWhile (fun c => c ≠ '=')).drop 1))
  else none

/-- `self._config[section_name][option] = value` in `read`: the
`defaultdict` creates the section on first use, and
`ArkConfigSection.__setitem__` stores the raw string value. -/
def cfgSetOption (cfg : ArkCfg) (name key value : Str) : Except String ArkCfg :=
  match lookupA cfg name with
  | some sec =>
    match setItem sec key (.one (.iS value)) with
    | .error e => .error e
    | .ok sec' => .ok (updateA cfg name sec')
  | none =>
    match setItem [] key (.one (.iS value)) with
    | .error e => .error e
    | .ok sec' => .ok (cfg ++ [(name, sec')])

/-- One iteration of the `read` loop on a raw line, carrying the current
section name: strip; skip blanks and `';'` comments; open a section on a
header match; otherwise fail if no section is open yet; otherwise store an
option match, and silently skip a line with no `'='`. -/
def readStep (cur : Option Str) (cfg : ArkCfg) (line : Str) :
    Except String (Option Str × ArkCfg) :=
  let l := pyStrip line
  if l = [] || l.head? = some ';' then .ok (cur, cfg)
  else
    match headerName l with
    | some name => .ok (some name, cfg)
    | none =>
      match cur with
      | none => .error ("No section for option: " ++ String.mk l)
      | some name =>
        match optionMatch l with
        | some ov =>
          match cfgSetOption cfg name ov.1 ov.2 with
          | .error e => .error e
          | .ok cfg' => .ok (some name, cfg')
        | none => .ok (some name, cfg)

/-- The `read` loop over a list of raw lines. -/
def readAux : Option Str → ArkCfg → List Str → Except String ArkCfg
  | _, cfg, [] => .ok cfg
  | cur, cfg, line :: rest =>
    match readStep cur cfg line with
    | .error e => .error e
    | .ok sc => readAux sc.1 sc.2 rest

/-- `ArkConfig.read` on the decoded lines of the file (the state starts at
`section_name = None` over a cleared configuration). -/
def readLines (lines : List Str) : Except String ArkCfg := readAux none [] lines

/-- `ArkConfig.read` on a whole text: `readlines()` decomposes the text at
newlines (each line is then stripped, so the trailing empty line produced
by a terminating newline is skipped as blank). -/
def readText (text : Str) : Except String ArkCfg := readLines (splitNl text)

/-- `ArkConfig.dump`: for each section a header line, the section's own
(pre-joined) dump, and a blank separator, all joined with `'\n'`. -/
def configDump (cfg : ArkCfg) : Str :=
  joinNl ((cfg.map (fun ns =>
    ['[' :: ns.1 ++ [']'], sectionDump ns.2, ([] : Str)])).flatten)

/-! ### `ArkConfig.merge` -/

/-- `{k: None for k in self.section_names + other.section_names}`:
order-preserving deduplication of the concatenated name lists. -/
def dedupNames (l : List Str) : List Str :=
  l.foldl (fun acc n => if acc.contains n then acc else acc ++ [n]) []

/-- `self.data | other.data` on the backing dicts: the left dict's keys in
order with the right dict's values winning on collision, then the right
dict's remaining keys in their order. -/
def dictOr (a b : ArkSection) : List (Str × PyVal) :=
  a.map (fun kv => (kv.1, (lookupA b kv.1).getD kv.2)) ++
    b.filter (fun kv => !(hasKey a kv.1))

/-- `ArkConfigSection.__or__` (inherited from `UserDict`): construct
`ArkConfigSection(self.data | other.data)`, which re-runs `__setitem__`
on every merged pair. -/
def orSection (a b : ArkSection) : Except String ArkSection :=
  sectionFromPairs (dictOr a b)

/-- `ArkConfig.merge`: iterate the union of the section names, indexing
*both* operands with the raising `__getitem__`, and assign the section-level
`|` into a fresh configuration. -/
def merge (a b : ArkCfg) : Except String ArkCfg :=
  (dedupNames (a.map Prod.fst ++ b.map Prod.fst)).foldlM
    (fun acc n => do
      let pa ← configGetItem a n
      let pb ← configGetItem b n
      let s ← orSection pa.1 pb.1
      pure (cfgAssign acc n s)) []

/-! ### `ArkConfig._expand_env_vars` -/

/-- `ENV_RE.match(value)`: the pattern `\$\{(?P<env>[A-Za-z_][A-Za-z0-9_]*)\}`
matched at the start only — trailing text after the closing brace is
ignored.  The name is the maximal run of word characters after the opening
brace; its first character must not be a digit, and the run must be
followed by the closing brace. -/
def envMatch (t : Str) : Option Str :=
  match t with
  | '$' :: '{' :: rest =>
    let nm := rest.takeWhile (fun c => c.isAlphanum || c = '_')
    match nm with
    | [] => none
    | c :: _ =>
      if (c.isAlpha || c = '_') &&
          (rest.dropWhile (fun c => c.isAlphanum || c = '_')).head? = some '}' then
        some nm
      else none
  | _ => none

/-- The inner loop of `_expand_env_vars` over one section: every
string-valued option whose stripped value matches `ENV_RE` at the start is
overwritten (via a direct `.data[key]` write) with the environment's value
for the name, defaulting to the empty string when absent; every other
option is left alone. -/
def expandSection (env : Str → Option Str) (sec : ArkSection) : ArkSection :=
  sec.foldl (fun acc kv =>
    match kv.2 with
    | .one (.iS s) =>
      match envMatch (pyStrip s) with
      | some nm => updateA acc kv.1 (.one (.iS ((env nm).getD [])))
      | none => acc
    | _ => acc) sec

/-- `ArkConfig._expand_env_vars`, parameterized by the process environment. -/
def expand_env_vars (env : Str → Option Str) (cfg : ArkCfg) : ArkCfg :=
  cfg.map (fun ns => (ns.1, expandSection env ns.2))

/-! ## The older-generation `ItemEntry` (`src/complex_values.py`) -/

/-- The field record of the older-generation `ItemEntry` dataclass, with
the source's defaults. -/
structure ItemEntry where
  ItemEntryName : Option Str := none
  EntryWeight : Option ℚ := none
  Items : Option (List Str) := none
  ItemClassStrings : Option (List Str) := none
  ItemsWeights : Option (List ℚ) := none
  ItemsMinQuantities : Option (List ℚ) := none
  ItemsMaxQuantities : Option (List ℚ) := none
  GiveRequiresMinimumCharacterLevel : Option Int := none
  GiveExtraItemQuantityPercentByOwnerCharacterLevel : Option ℚ := none
  MinQuantity : ℚ := 1
  MaxQuantity : ℚ := 1
  QuantityPower : ℚ := 1
  MinQuality : ℚ := 1
  MaxQuality : ℚ := 1
  QualityPower : ℚ := 1
  bForceBlueprint : Bool := false
  ChanceToBeBlueprintOverride : ℚ := 0
  ChanceToActuallyGiveItem : Option ℚ := none
  RequiresMinQuality : Option ℚ := none
  bActualItemRandomWithoutReplacement : Bool := false
  deriving DecidableEq, Repr

/-- Python truthiness of an optional list field (`not x` is true for both
`None` and the empty list). -/
def pyTruthyList {α : Type} : Option (List α) → Bool
  | none => false
  | some l => !l.isEmpty

/-- Constructing the older-generation `ItemEntry` (the dataclass `__init__`
followed by `__post_init__`, which `from_dict` also goes through): the one
validation raises `ValueError("ItemEntry must have Items or
ItemClassStrings")` when neither list field is truthy. -/
def mkItemEntry (e : ItemEntry) : Except String ItemEntry :=
  if !pyTruthyList e.Items && !pyTruthyList e.ItemClassStrings then
    .error "ItemEntry must have Items or ItemClassStrings"
  else .ok e

/-! ## Derived and specification-side definitions used by the claims -/

/-- The elements a stored value contributes when folded into a list
(a scalar contributes itself; a list its elements). -/
def elemsOf : PyVal → List Item
  | .one x => [x]
  | .many xs => xs

/-- An optional sign, as matched by `[+-]?`. -/
def IsSign (s : Str) : Prop := s = [] ∨ s = ['+'] ∨ s = ['-']

/-- The spec's description of the float pattern: an optional sign, optional
leading digits, a literal dot, and one or more trailing digits — as a
whole-string decomposition. -/
def FloatShape (t : Str) : Prop :=
  ∃ sg ip fp, IsSign sg ∧ (∀ c ∈ ip, isDig c = true) ∧ fp ≠ [] ∧
    (∀ c ∈ fp, isDig c = true) ∧ t = sg ++ ip ++ '.' :: fp

/-- The spec's description of the integer pattern: an optional sign and one
or more digits, as a whole-string decomposition. -/
def IntShape (t : Str) : Prop :=
  ∃ sg ds, IsSign sg ∧ ds ≠ [] ∧ (∀ c ∈ ds, isDig c = true) ∧ t = sg ++ ds

/-- A stripped line `read` skips: blank, or a `';'` comment. -/
def isSkip (l : Str) : Bool := l.isEmpty || (l.head? == some ';')

/-- A stripped line that is neither skipped nor a section header (the lines
that raise `ValueError` when no section is open yet). -/
def isBadOpt (l : Str) : Bool := !isSkip l && (headerName l).isNone

/-- Specification-side description of what the interpolation pass does to a
single stored value (used to state the amended claim C7 against the
imperative `expandSection`). -/
def expandValSpec (env : Str → Option Str) (v : PyVal) : PyVal :=
  match v with
  | .one (.iS s) =>
    match envMatch (pyStrip s) with
    | some nm => .one (.iS ((env nm).getD []))
    | none => v
  | _ => v

/-- A key whose `key=value` line re-reads as the same key: strip-stable, no
`'='`, no newline, and not starting with `';'` or `'['`. -/
def goodKey (k : Str) : Bool :=
  (pyStrip k == k) && !k.contains '=' && !k.contains '\n' &&
    !(k.head? == some ';') && !(k.head? == some '[')

/-- A stored value that survives a dump/re-read: a scalar whose rendered
token is newline-free, strip-stable, and re-classifies to the value itself. -/
def goodVal (v : PyVal) : Bool :=
  match v with
  | .one x =>
    (parse_value (itemRender x) == x) && !(itemRender x).contains '\n' &&
      (pyStrip (itemRender x) == itemRender x)
  | .many _ => false

/-- A section name whose header line re-reads as the same name: nonempty
and newline-free. -/
def goodName (n : Str) : Bool := !n.isEmpty && !n.contains '\n'

/-- The hypotheses of the amended round-trip claim C2: distinct well-formed
section names, nonempty sections with distinct well-formed keys, and
scalar values that re-classify to themselves. -/
def GoodCfg (cfg : ArkCfg) : Prop :=
  (cfg.map Prod.fst).Nodup ∧
    ∀ ns ∈ cfg, goodName ns.1 = true ∧ ns.2 ≠ [] ∧ (ns.2.map Prod.fst).Nodup ∧
      ∀ kv ∈ ns.2, goodKey kv.1 = true ∧ goodVal kv.2 = true

/-- The fully flattened line list of `ArkConfig.dump` (equal, line for
line, to `configDump` split at newlines, once every section is nonempty). -/
def configDumpLinesFlat (cfg : ArkCfg) : List Str :=
  (cfg.map (fun ns => ('[' :: ns.1 ++ [']']) :: sectionDumpLines ns.2 ++ [[]])).flatten

/-! ## Basic lemmas about the association-list and string helpers -/

theorem lookupA_append_left {α : Type} (l₁ l₂ : List (Str × α)) (k : Str) (v : α)
    (h : lookupA l₁ k = some v) : lookupA (l₁ ++ l₂) k = some v := by
  induction l₁ with
  | nil => simp [lookupA] at h
  | cons a rest ih =>
    obtain ⟨k', v'⟩ := a
    by_cases hk : k' = k
    · simp only [lookupA, hk, if_true] at h ⊢
      exact h
    · simp only [lookupA, hk, if_false, List.cons_append] at h ⊢
      exact ih h

theorem lookupA_append_right {α : Type} (l₁ l₂ : List (Str × α)) (k : Str)
    (h : lookupA l₁ k = none) : lookupA (l₁ ++ l₂) k = lookupA l₂ k := by
  induction l₁ with
  | nil => simp
  | cons a rest ih =>
    obtain ⟨k', v'⟩ := a
    by_cases hk : k' = k
    · simp [lookupA, hk] at h
    · simp only [lookupA, hk, if_false, List.cons_append] at h ⊢
      exact ih h

theorem updateA_append_notin {α : Type} (l₁ l₂ : List (Str × α)) (k : Str) (v : α)
    (h : lookupA l₁ k = none) : updateA (l₁ ++ l₂) k v = l₁ ++ updateA l₂ k v := by
  induction l₁ with
  | nil => simp
  | cons a rest ih =>
    obtain ⟨k', v'⟩ := a
    by_cases hk : k' = k
    · simp [lookupA, hk] at h
    · simp only [lookupA, hk, if_false] at h
      simp [updateA, hk, ih h]

theorem updateA_self {α : Type} (l : List (Str × α)) (k : Str) (v : α)
    (h : lookupA l k = some v) : updateA l k v = l := by
  induction l with
  | nil => simp [lookupA] at h
  | cons a rest ih =>
    obtain ⟨k', v'⟩ := a
    by_cases hk : k' = k
    · simp only [lookupA, hk, if_true, Option.some.injEq] at h
      simp [updateA, hk, h]
    · simp only [lookupA, hk, if_false] at h
      simp [updateA, hk, ih h]

theorem lookupA_updateA_self {α : Type} (l : List (Str × α)) (k : Str) (v : α)
    (h : hasKey l k = true) : lookupA (updateA l k v) k = some v := by
  induction l with
  | nil => simp [hasKey, lookupA] at h
  | cons a rest ih =>
    obtain ⟨k', v'⟩ := a
    by_cases hk : k' = k
    · simp [updateA, lookupA, hk]
    · simp only [hasKey, lookupA, hk, if_false] at h
      simp [updateA, lookupA, hk, ih h]

theorem updateA_updateA {α : Type} (l : List (Str × α)) (k : Str) (v w : α) :
    updateA (updateA l k v) k w = updateA l k w := by
  induction l with
  | nil => simp [updateA]
  | cons a rest ih =>
    obtain ⟨k', v'⟩ := a
    by_cases hk : k' = k
    · simp [updateA, hk]
    · simp [updateA, hk, ih]

theorem updateA_map_fst {α : Type} (l : List (Str × α)) (k : Str) (v : α) :
    (updateA l k v).map Prod.fst = l.map Prod.fst := by
  induction l with
  | nil => simp [updateA]
  | cons a rest ih =>
    obtain ⟨k', v'⟩ := a
    by_cases hk : k' = k
    · simp [updateA, hk]
    · simp [updateA, hk, ih]

theorem takeWhile_app (p : Char → Bool) (xs : Str) (y : Char) (ys : Str)
    (h : ∀ x ∈ xs, p x = true) (hy : p y = false) :
    (xs ++ y :: ys).takeWhile p = xs ∧ (xs ++ y :: ys).dropWhile p = y :: ys := by
  induction xs with
  | nil => simp [List.takeWhile, List.dropWhile, hy]
  | cons a rest ih =>
    have ha : p a = true := h a (by simp)
    have hr := ih (fun x hx => h x (by simp [hx]))
    simp [List.takeWhile, List.dropWhile, ha, hr.1, hr.2]

theorem dropWhile_eq_self_of_head (p : Char → Bool) (l : Str)
    (h : ∀ c, l.head? = some c → p c = false) : l.dropWhile p = l := by
  cases l with
  | nil => rfl
  | cons c t => simp [List.dropWhile, h c rfl]

theorem pyStrip_eq_self_of (l : Str)
    (h1 : ∀ c, l.head? = some c → pyIsSpace c = false)
    (h2 : ∀ c, l.reverse.head? = some c → pyIsSpace c = false) : pyStrip l = l := by
  unfold pyStrip
  rw [dropWhile_eq_self_of_head _ _ h1, dropWhile_eq_self_of_head _ _ h2,
    List.reverse_reverse]

theorem length_dropWhile_le' (p : Char → Bool) (l : Str) :
    (l.dropWhile p).length ≤ l.length := by
  induction l with
  | nil => simp
  | cons c t ih =>
    by_cases hc : p c
    · simp only [List.dropWhile, hc]
      exact Nat.le_succ_of_le ih
    · simp [List.dropWhile, hc]

theorem dropWhile_self_head (p : Char → Bool) (l : Str) (h : l.dropWhile p = l) :
    ∀ c, l.head? = some c → p c = false := by
  intro c hc
  cases l with
  | nil => simp at hc
  | cons a t =>
    have ha : a = c := by simpa using hc
    subst ha
    by_cases hp : p a
    · exfalso
      simp only [List.dropWhile, hp] at h
      have h1 := congrArg List.length h
      have h2 := length_dropWhile_le' p t
      simp only [List.length_cons] at h1
      omega
    · simpa using hp

theorem stripStable_dropWhile (l : Str) (h : pyStrip l = l) :
    l.dropWhile pyIsSpace = l := by
  cases l with
  | nil => rfl
  | cons c t =>
    by_cases hc : pyIsSpace c
    · exfalso
      have hlen := congrArg List.length h
      have h1 : (pyStrip (c :: t)).length ≤ t.length := by
        unfold pyStrip
        simp only [List.dropWhile, hc]
        calc ((t.dropWhile pyIsSpace).reverse.dropWhile pyIsSpace).reverse.length
            = ((t.dropWhile pyIsSpace).reverse.dropWhile pyIsSpace).length := by
              simp
          _ ≤ (t.dropWhile pyIsSpace).reverse.length := length_dropWhile_le' _ _
          _ = (t.dropWhile pyIsSpace).length := by simp
          _ ≤ t.length := length_dropWhile_le' _ _
      rw [hlen] at h1
      simp only [List.length_cons] at h1
      omega
    · simp [List.dropWhile, hc]

theorem stripStable_head (l : Str) (h : pyStrip l = l) :
    ∀ c, l.head? = some c → pyIsSpace c = false :=
  dropWhile_self_head _ _ (stripStable_dropWhile l h)

theorem stripStable_last (l : Str) (h : pyStrip l = l) :
    ∀ c, l.reverse.head? = some c → pyIsSpace c = false := by
  have h1 := stripStable_dropWhile l h
  have h0 := h
  unfold pyStrip at h0
  rw [h1] at h0
  have h2 : l.reverse.dropWhile pyIsSpace = l.reverse := by
    have := congrArg List.reverse h0
    rwa [List.reverse_reverse] at this
  exact dropWhile_self_head _ _ h2

theorem splitNl_noNl (l : Str) (h : '\n' ∉ l) : splitNl l = [l] := by
  induction l with
  | nil => rfl
  | cons c t ih =>
    have hc : ¬ c = '\n' := fun hh => h (by simp [hh])
    have ht := ih (fun hh => h (by simp [hh]))
    simp [splitNl, hc, ht]

theorem splitNl_append_nl (l t : Str) (h : '\n' ∉ l) :
    splitNl (l ++ '\n' :: t) = l :: splitNl t := by
  induction l with
  | nil => simp [splitNl]
  | cons c r ih =>
    have hc : ¬ c = '\n' := fun hh => h (by simp [hh])
    have hr := ih (fun hh => h (by simp [hh]))
    simp [splitNl, hc, List.append_eq, hr]

theorem splitNl_ne_nil (l : Str) : splitNl l ≠ [] := by
  cases l with
  | nil => simp [splitNl]
  | cons c t =>
    by_cases hc : c = '\n'
    · simp [splitNl, hc]
    · simp only [splitNl, hc, if_false]
      cases h : splitNl t <;> simp

theorem joinNl_cons (a : Str) (ls : List Str) (h : ls ≠ []) :
    joinNl (a :: ls) = a ++ '\n' :: joinNl ls := by
  cases ls with
  | nil => simp at h
  | cons b t => rfl

theorem joinNl_append (xs ys : List Str) (hx : xs ≠ []) (hy : ys ≠ []) :
    joinNl (xs ++ ys) = joinNl xs ++ '\n' :: joinNl ys := by
  induction xs with
  | nil => simp at hx
  | cons a rest ih =>
    cases rest with
    | nil =>
      rw [List.singleton_append, joinNl_cons a ys hy]
      simp [joinNl]
    | cons a' rest' =>
      have h1 : joinNl (a :: (a' :: rest' ++ ys)) = a ++ '\n' :: joinNl (a' :: rest' ++ ys) :=
        joinNl_cons a _ (by simp)
      have h2 : joinNl (a :: a' :: rest') = a ++ '\n' :: joinNl (a' :: rest') :=
        joinNl_cons a _ (by simp)
      rw [List.cons_append, h1, ih (by simp), h2]
      simp

theorem splitNl_joinNl (ls : List Str) (hnl : ∀ l ∈ ls, '\n' ∉ l) (hne : ls ≠ []) :
    splitNl (joinNl ls) = ls := by
  induction ls with
  | nil => simp at hne
  | cons a rest ih =>
    cases rest with
    | nil => exact splitNl_noNl a (hnl a (by simp))
    | cons b t =>
      rw [joinNl_cons a _ (by simp), splitNl_append_nl a _ (hnl a (by simp)),
        ih (fun l hl => hnl l (by simp [hl])) (by simp)]

/-! ## Computation lemmas for `setItem` and the read step -/

theorem normalizeItem_str (k s : Str) :
    normalizeItem k (.one (.iS s)) = .ok (.one (parse_value s)) := rfl

theorem setItem_str_new (data : ArkSection) (k s : Str)
    (h : lookupA data k = none) :
    setItem data k (.one (.iS s)) = .ok (data ++ [(k, .one (parse_value s))]) := by
  simp only [setItem, normalizeItem_str, h]

theorem setItem_str_ok (data : ArkSection) (k s : Str) :
    ∃ r, setItem data k (.one (.iS s)) = .ok r := by
  cases h : lookupA data k with
  | none => exact ⟨_, setItem_str_new data k s h⟩
  | some ex =>
    cases ex with
    | one e =>
      refine ⟨updateA data k (.many [e, parse_value s]), ?_⟩
      simp only [setItem, normalizeItem_str, h]
    | many es =>
      refine ⟨updateA data k (.many (es ++ [parse_value s])), ?_⟩
      simp only [setItem, normalizeItem_str, h]

theorem cfgSetOption_ok (cfg : ArkCfg) (name k v : Str) :
    ∃ r, cfgSetOption cfg name k v = .ok r := by
  cases h : lookupA cfg name with
  | none =>
    obtain ⟨r, hr⟩ := setItem_str_ok [] k v
    refine ⟨cfg ++ [(name, r)], ?_⟩
    simp only [cfgSetOption, h, hr]
  | some sec =>
    obtain ⟨r, hr⟩ := setItem_str_ok sec k v
    refine ⟨updateA cfg name r, ?_⟩
    simp only [cfgSetOption, h, hr]

/-! ## Claim theorems -/

/-- Claim C1 (code bug, failing input): `merge` is claimed to return the
union of the two operands' sections, copying unchanged any section present
in only one operand.  In fact `merge` iterates the union of the section
names but indexes *both* operands with the raising `__getitem__`, so on a
base holding section `A` and an empty patch it raises
`KeyError("Section 'A' not found")` instead of copying `base["A"]`. -/
theorem merge_raises_on_one_sided_section :
    merge [("A".toList, [("k".toList, PyVal.one (Item.iI 1))])] [] =
      Except.error (keyErrorMsg "A".toList) := by
  rfl

/-- Claim C5 (counterexample): constructing the older-generation `ItemEntry`
with *both* `Items` and `ItemClassStrings` populated succeeds, and so does a
construction with an `ItemsWeights` list whose length (2) differs from the
populated item list's length (1) — the claim says both must fail. -/
theorem itemEntry_accepts_both_and_mismatched_weights :
    mkItemEntry { Items := some ["a".toList], ItemClassStrings := some ["b".toList] } =
      Except.ok { Items := some ["a".toList], ItemClassStrings := some ["b".toList] } ∧
    mkItemEntry { Items := some ["a".toList], ItemsWeights := some [(1 : ℚ), 2] } =
      Except.ok { Items := some ["a".toList], ItemsWeights := some [(1 : ℚ), 2] } := by
  constructor <;> rfl

/-- Claim C5 (amended): constructing the older-generation `ItemEntry` fails,
with the descriptive error `"ItemEntry must have Items or ItemClassStrings"`,
exactly when neither `Items` nor `ItemClassStrings` is populated (absent or
empty, by Python truthiness); every other combination — including both
fields populated, or a mismatched `ItemsWeights` length — is accepted
unchanged. -/
theorem itemEntry_error_iff_neither_populated :
    ∀ e : ItemEntry,
      (mkItemEntry e = Except.error "ItemEntry must have Items or ItemClassStrings" ∨
        mkItemEntry e = Except.ok e) ∧
      ((∃ msg, mkItemEntry e = Except.error msg) ↔
        pyTruthyList e.Items = false ∧ pyTruthyList e.ItemClassStrings = false) := by
  intro e
  unfold mkItemEntry
  by_cases h1 : pyTruthyList e.Items <;> by_cases h2 : pyTruthyList e.ItemClassStrings <;>
    simp [h1, h2]

/-- Claim C10: `ArkConfig.__getitem__` on an absent section name raises a
`KeyError` naming the section and leaves the configuration unchanged; on a
present name it returns that section and — despite the `defaultdict`
backing store — never creates a section as a side effect of the lookup. -/
theorem getitem_never_creates_section :
    ∀ (cfg : ArkCfg) (n : Str),
      (hasKey cfg n = false → configGetItem cfg n = Except.error (keyErrorMsg n)) ∧
      (∀ sec cfg', configGetItem cfg n = Except.ok (sec, cfg') →
        cfg' = cfg ∧ lookupA cfg n = some sec) := by
  intro cfg n
  constructor
  · intro h
    simp [configGetItem, h]
  · intro sec cfg' h
    by_cases hk : hasKey cfg n
    · simp only [configGetItem, hk, if_true] at h
      unfold ddLookup at h
      cases hl : lookupA cfg n with
      | none => simp [hasKey, hl] at hk
      | some s =>
        rw [hl] at h
        have h2 : (s, cfg) = (sec, cfg') := Except.ok.inj h
        simp only [Prod.mk.injEq] at h2
        exact ⟨h2.2.symm, by rw [h2.1]⟩
    · simp [configGetItem, hk] at h

/-- Witness for C10's theorem at concrete inputs: looking up the absent
section `"B"` in a one-section configuration raises the keyed error, and
looking up the present `"A"` returns it with the store unchanged. -/
theorem getitem_never_creates_section_witness :
    hasKey [("A".toList, ([] : ArkSection))] "B".toList = false ∧
    configGetItem [("A".toList, ([] : ArkSection))] "B".toList =
      Except.error (keyErrorMsg "B".toList) ∧
    ([("A".toList, ([] : ArkSection))] = [("A".toList, ([] : ArkSection))] ∧
      lookupA [("A".toList, ([] : ArkSection))] "A".toList = some []) := by
  refine ⟨by decide, ?_, ?_⟩
  · exact (getitem_never_creates_section _ _).1 (by decide)
  · exact (getitem_never_creates_section [("A".toList, [])] "A".toList).2 [] _ (by rfl)

/-- Claim C3: `ArkConfigSection.__setitem__` on a key that is already
present never overwrites: the stored value becomes the list made of the
existing value's elements (a scalar contributing itself) followed by the
new (normalized) value's elements, in place — the key keeps the position of
its first insertion.  In particular, on an empty section, setting `A="1"`
then `A="2"` yields the list `[1, 2]` under `A`. -/
theorem setitem_folds_never_overwrites :
    (∀ (sec : ArkSection) (k : Str) (v ex : PyVal) (sec' : ArkSection),
      lookupA sec k = some ex → setItem sec k v = Except.ok sec' →
      ∃ nv, normalizeItem k v = Except.ok nv ∧
        sec' = updateA sec k (PyVal.many (elemsOf ex ++ elemsOf nv)) ∧
        sec'.map Prod.fst = sec.map Prod.fst) ∧
    setItem [] "A".toList (PyVal.one (Item.iS "1".toList)) =
      Except.ok [("A".toList, PyVal.one (Item.iI 1))] ∧
    setItem [("A".toList, PyVal.one (Item.iI 1))] "A".toList
        (PyVal.one (Item.iS "2".toList)) =
      Except.ok [("A".toList, PyVal.many [Item.iI 1, Item.iI 2])] := by
  refine ⟨?_, by rfl, by rfl⟩
  intro sec k v ex sec' hl hs
  cases hn : normalizeItem k v with
  | error e =>
    simp [setItem, hn] at hs
  | ok nv =>
    refine ⟨nv, rfl, ?_⟩
    cases ex with
    | one e =>
      cases nv with
      | one x =>
        simp only [setItem, hn, hl] at hs
        have h1 := Except.ok.inj hs
        subst h1
        exact ⟨by simp [elemsOf], updateA_map_fst _ _ _⟩
      | many is =>
        simp only [setItem, hn, hl] at hs
        have h1 := Except.ok.inj hs
        subst h1
        exact ⟨by simp [elemsOf], updateA_map_fst _ _ _⟩
    | many es =>
      cases nv with
      | one x =>
        simp only [setItem, hn, hl] at hs
        have h1 := Except.ok.inj hs
        subst h1
        exact ⟨by simp [elemsOf], updateA_map_fst _ _ _⟩
      | many is =>
        simp only [setItem, hn, hl] at hs
        have h1 := Except.ok.inj hs
        subst h1
        exact ⟨by simp [elemsOf], updateA_map_fst _ _ _⟩

/-- Witness for C3's universally quantified part: folding a second value
into the one-entry section `{A: 1}` gives `{A: [1, 2]}`, with `normalizeItem`
classifying the incoming string `"2"`. -/
theorem setitem_folds_never_overwrites_witness :
    ∃ nv, normalizeItem "A".toList (PyVal.one (Item.iS "2".toList)) = Except.ok nv ∧
      [("A".toList, PyVal.many [Item.iI 1, Item.iI 2])] =
        updateA [("A".toList, PyVal.one (Item.iI 1))] "A".toList
          (PyVal.many (elemsOf (PyVal.one (Item.iI 1)) ++ elemsOf nv)) ∧
      ([("A".toList, PyVal.many [Item.iI 1, Item.iI 2])].map Prod.fst) =
        ([("A".toList, PyVal.one (Item.iI 1))].map Prod.fst) :=
  setitem_folds_never_overwrites.1
    [("A".toList, PyVal.one (Item.iI 1))] "A".toList
    (PyVal.one (Item.iS "2".toList)) (PyVal.one (Item.iI 1))
    [("A".toList, PyVal.many [Item.iI 1, Item.iI 2])]
    (by rfl) (by rfl)

/-- Claim C9: during `read`, once a section is open, a non-blank,
non-comment, non-header line containing no `'='` is silently ignored: the
step neither raises nor changes the state, and the whole parse of any
continuation is unaffected by the line. -/
theorem read_ignores_eqless_lines :
    ∀ (name : Str) (cfg : ArkCfg) (line : Str) (rest : List Str),
      pyStrip line ≠ [] →
      (pyStrip line).head? ≠ some ';' →
      headerName (pyStrip line) = none →
      '=' ∉ pyStrip line →
      readStep (some name) cfg line = Except.ok (some name, cfg) ∧
      readAux (some name) cfg (line :: rest) = readAux (some name) cfg rest := by
  intro name cfg line rest h1 h2 h3 h4
  have hcont : (pyStrip line).contains '=' = false := by
    by_contra hc
    exact h4 (by simpa using Bool.of_not_eq_false hc)
  have hopt : optionMatch (pyStrip line) = none := by
    simp only [optionMatch]
    simp only [ite_eq_right_iff]
    intro hc
    exact absurd (by simpa using hc) h4
  have hstep : readStep (some name) cfg line = Except.ok (some name, cfg) := by
    simp [readStep, h1, h2, h3, hopt]
  refine ⟨hstep, ?_⟩
  simp only [readAux, hstep]

/-- Witness for C9's theorem: the line `"garbage"` after an open section
header is skipped without error or effect. -/
theorem read_ignores_eqless_lines_witness :
    readStep (some "A".toList) [] "garbage".toList = Except.ok (some "A".toList, []) ∧
    readAux (some "A".toList) [] ["garbage".toList, "x=1".toList] =
      readAux (some "A".toList) [] ["x=1".toList] :=
  read_ignores_eqless_lines "A".toList [] "garbage".toList ["x=1".toList]
    (by decide) (by decide) (by decide) (by decide)

theorem mem_takeWhile (p : Char → Bool) (l : Str) :
    ∀ x ∈ l.takeWhile p, p x = true := by
  induction l with
  | nil => simp
  | cons c t ih =>
    intro x hx
    by_cases hc : p c
    · simp only [List.takeWhile, hc] at hx
      rcases List.mem_cons.1 hx with h | h
      · rwa [h]
      · exact ih x h
    · simp [List.takeWhile, hc] at hx

theorem splitSign_eq (t : Str) :
    (∃ r, t = '+' :: r ∧ splitSign t = (false, r)) ∨
    (∃ r, t = '-' :: r ∧ splitSign t = (true, r)) ∨
    (splitSign t = (false, t) ∧ t.head? ≠ some '+' ∧ t.head? ≠ some '-') := by
  cases t with
  | nil => exact Or.inr (Or.inr ⟨rfl, by simp, by simp⟩)
  | cons c r =>
    by_cases h1 : c = '+'
    · subst h1
      exact Or.inl ⟨r, rfl, rfl⟩
    · by_cases h2 : c = '-'
      · subst h2
        exact Or.inr (Or.inl ⟨r, rfl, rfl⟩)
      · refine Or.inr (Or.inr ⟨?_, by simpa using h1, by simpa using h2⟩)
        unfold splitSign
        split
        · next heq => exact absurd (List.cons.inj heq).1 h1
        · next heq => exact absurd (List.cons.inj heq).1 h2
        · rfl

theorem unsignedFloat_iff (r : Str) :
    (((r.dropWhile isDig).head? = some '.') ∧ (r.dropWhile isDig).tail ≠ [] ∧
      ∀ c ∈ (r.dropWhile isDig).tail, isDig c = true)
    ↔ ∃ ip fp, (∀ c ∈ ip, isDig c = true) ∧ fp ≠ [] ∧ (∀ c ∈ fp, isDig c = true) ∧
        r = ip ++ '.' :: fp := by
  constructor
  · rintro ⟨h1, h2, h3⟩
    refine ⟨r.takeWhile isDig, (r.dropWhile isDig).tail, mem_takeWhile _ _, h2, h3, ?_⟩
    conv_lhs => rw [← List.takeWhile_append_dropWhile (p := isDig) (l := r)]
    congr 1
    cases hd : r.dropWhile isDig with
    | nil => rw [hd] at h1; simp at h1
    | cons d fp =>
      rw [hd] at h1
      simp only [List.head?, Option.some.injEq] at h1
      rw [h1]
      rfl
  · rintro ⟨ip, fp, hip, hne, hfp, rfl⟩
    have hsplit := takeWhile_app isDig ip '.' fp hip (by decide)
    rw [hsplit.2]
    exact ⟨rfl, by simpa using hne, by simpa using hfp⟩

theorem floatTok_cond (t : Str) :
    (floatTok t).isSome = true ↔
      (((splitSign t).2.dropWhile isDig).head? = some '.' ∧
        ((splitSign t).2.dropWhile isDig).tail ≠ [] ∧
        ∀ c ∈ ((splitSign t).2.dropWhile isDig).tail, isDig c = true) := by
  by_cases hA : ((splitSign t).2.dropWhile isDig).head? = some '.'
  · by_cases hB : (((splitSign t).2.dropWhile isDig).tail ≠ [] &&
        ((splitSign t).2.dropWhile isDig).tail.all isDig) = true
    · have hB' := hB
      simp only [Bool.and_eq_true, ne_eq, decide_not, Bool.not_eq_true,
        decide_eq_false_iff_not, List.all_eq_true] at hB'
      have hne : ((splitSign t).2.dropWhile isDig).tail ≠ [] := by simpa using hB'.1
      simp [floatTok, hA, hB, hne, hB'.2]
    · have hB' := hB
      simp only [Bool.and_eq_true, ne_eq, decide_not, Bool.not_eq_true,
        decide_eq_false_iff_not, List.all_eq_true, not_and] at hB'
      simp only [floatTok, hA, if_pos, if_true, hB, if_false]
      constructor
      · intro h
        simp at h
      · rintro ⟨_, h2, h3⟩
        exact absurd (hB' (by simpa using h2)) (by simpa using h3)
  · simp [floatTok, hA]

theorem intTok_cond (t : Str) :
    (intTok t).isSome = true ↔
      ((splitSign t).2 ≠ [] ∧ ∀ c ∈ (splitSign t).2, isDig c = true) := by
  by_cases hB : ((splitSign t).2 ≠ [] && (splitSign t).2.all isDig) = true
  · have hB' := hB
    simp only [Bool.and_eq_true, ne_eq, decide_not, Bool.not_eq_true,
      decide_eq_false_iff_not, List.all_eq_true] at hB'
    have hne : (splitSign t).2 ≠ [] := by simpa using hB'.1
    simp [intTok, hB, hne, hB'.2]
  · have hB' := hB
    simp only [Bool.and_eq_true, ne_eq, decide_not, Bool.not_eq_true,
      decide_eq_false_iff_not, List.all_eq_true, not_and] at hB'
    simp only [intTok, hB, if_false]
    constructor
    · intro h
      simp at h
    · rintro ⟨h2, h3⟩
      exact absurd (hB' (by simpa using h2)) (by simpa using h3)

/-- The float matcher succeeds exactly on the spec's float pattern:
optional sign, optional leading digits, a dot, one or more trailing digits. -/
theorem floatTok_isSome_iff (t : Str) : (floatTok t).isSome = true ↔ FloatShape t := by
  rw [floatTok_cond]
  rcases splitSign_eq t with ⟨r, rfl, hsp⟩ | ⟨r, rfl, hsp⟩ | ⟨hsp, hp, hm⟩
  · rw [hsp]
    simp only [unsignedFloat_iff]
    constructor
    · rintro ⟨ip, fp, hip, hne, hfp, rfl⟩
      exact ⟨['+'], ip, fp, Or.inr (Or.inl rfl), hip, hne, hfp, rfl⟩
    · rintro ⟨sg, ip, fp, hsg, hip, hne, hfp, heq⟩
      rcases hsg with rfl | rfl | rfl
      · cases ip with
        | nil => simp at heq
        | cons c ip' =>
          have hc := (List.cons.inj heq).1
          have hdig := hip c (by simp)
          rw [← hc] at hdig
          simp [isDig] at hdig
      · exact ⟨ip, fp, hip, hne, hfp, (List.cons.inj heq).2⟩
      · exact absurd (List.cons.inj heq).1 (by decide)
  · rw [hsp]
    simp only [unsignedFloat_iff]
    constructor
    · rintro ⟨ip, fp, hip, hne, hfp, rfl⟩
      exact ⟨['-'], ip, fp, Or.inr (Or.inr rfl), hip, hne, hfp, rfl⟩
    · rintro ⟨sg, ip, fp, hsg, hip, hne, hfp, heq⟩
      rcases hsg with rfl | rfl | rfl
      · cases ip with
        | nil => simp at heq
        | cons c ip' =>
          have hc := (List.cons.inj heq).1
          have hdig := hip c (by simp)
          rw [← hc] at hdig
          simp [isDig] at hdig
      · exact absurd (List.cons.inj heq).1 (by decide)
      · exact ⟨ip, fp, hip, hne, hfp, (List.cons.inj heq).2⟩
  · rw [hsp]
    simp only [unsignedFloat_iff]
    constructor
    · rintro ⟨ip, fp, hip, hne, hfp, heq⟩
      exact ⟨[], ip, fp, Or.inl rfl, hip, hne, hfp, by simpa using heq⟩
    · rintro ⟨sg, ip, fp, hsg, hip, hne, hfp, heq⟩
      rcases hsg with rfl | rfl | rfl
      · exact ⟨ip, fp, hip, hne, hfp, by simpa using heq⟩
      · exact absurd (by rw [heq]; rfl) hp
      · exact absurd (by rw [heq]; rfl) hm

/-- The integer matcher succeeds exactly on the spec's integer pattern:
optional sign and one or more digits. -/
theorem intTok_isSome_iff (t : Str) : (intTok t).isSome = true ↔ IntShape t := by
  rw [intTok_cond]
  rcases splitSign_eq t with ⟨r, rfl, hsp⟩ | ⟨r, rfl, hsp⟩ | ⟨hsp, hp, hm⟩
  · rw [hsp]
    constructor
    · rintro ⟨hne, hdig⟩
      exact ⟨['+'], r, Or.inr (Or.inl rfl), hne, hdig, rfl⟩
    · rintro ⟨sg, ds, hsg, hne, hdig, heq⟩
      rcases hsg with rfl | rfl | rfl
      · cases ds with
        | nil => simp at hne
        | cons c ds' =>
          have hc := (List.cons.inj (by simpa using heq)).1
          have h := hdig c (by simp)
          rw [← hc] at h
          simp [isDig] at h
      · have := (List.cons.inj heq).2
        subst this
        exact ⟨hne, hdig⟩
      · exact absurd (List.cons.inj heq).1 (by decide)
  · rw [hsp]
    constructor
    · rintro ⟨hne, hdig⟩
      exact ⟨['-'], r, Or.inr (Or.inr rfl), hne, hdig, rfl⟩
    · rintro ⟨sg, ds, hsg, hne, hdig, heq⟩
      rcases hsg with rfl | rfl | rfl
      · cases ds with
        | nil => simp at hne
        | cons c ds' =>
          have hc := (List.cons.inj (by simpa using heq)).1
          have h := hdig c (by simp)
          rw [← hc] at h
          simp [isDig] at h
      · exact absurd (List.cons.inj heq).1 (by decide)
      · have := (List.cons.inj heq).2
        subst this
        exact ⟨hne, hdig⟩
  · rw [hsp]
    constructor
    · rintro ⟨hne, hdig⟩
      exact ⟨[], t, Or.inl rfl, hne, hdig, by simp⟩
    · rintro ⟨sg, ds, hsg, hne, hdig, heq⟩
      rcases hsg with rfl | rfl | rfl
      · simp only [List.nil_append] at heq
        subst heq
        exact ⟨hne, hdig⟩
      · exact absurd (by rw [heq]; rfl) hp
      · exact absurd (by rw [heq]; rfl) hm

/-- Claim C4: `_parse_value` trims its input and then dispatches, in order:
a whole-string case-insensitive boolean literal; else the strict float
pattern (optional sign, optional leading digits, a dot, one or more
trailing digits); else the integer pattern (optional sign, one or more
digits); else the trimmed string itself — it is total, and in particular
`"1"` classifies as the integer 1, `"1.0"` as the float 1.0, and `"1."`
falls through to the string `"1."`. -/
theorem classifier_order_and_edge_cases :
    (∀ s b, boolTok (pyStrip s) = some b → parse_value s = Item.iB b) ∧
    (∀ s q, boolTok (pyStrip s) = none → floatTok (pyStrip s) = some q →
      parse_value s = Item.iF q) ∧
    (∀ s n, boolTok (pyStrip s) = none → floatTok (pyStrip s) = none →
      intTok (pyStrip s) = some n → parse_value s = Item.iI n) ∧
    (∀ s, boolTok (pyStrip s) = none → floatTok (pyStrip s) = none →
      intTok (pyStrip s) = none → parse_value s = Item.iS (pyStrip s)) ∧
    (∀ t, (floatTok t).isSome = true ↔ FloatShape t) ∧
    (∀ t, (intTok t).isSome = true ↔ IntShape t) ∧
    parse_value "1".toList = Item.iI 1 ∧
    parse_value "1.0".toList = Item.iF (1, 0) ∧
    parse_value "1.".toList = Item.iS "1.".toList := by
  refine ⟨?_, ?_, ?_, ?_, floatTok_isSome_iff, intTok_isSome_iff,
    by decide, by decide, by decide⟩
  · intro s b h
    simp [parse_value, h]
  · intro s q h1 h2
    simp [parse_value, h1, h2]
  · intro s n h1 h2 h3
    simp [parse_value, h1, h2, h3]
  · intro s h1 h2 h3
    simp [parse_value, h1, h2, h3]

/-- Witness for C4's dispatch clauses at a concrete input: `" .5 "` trims
and classifies as the float one half via the second (float) clause. -/
theorem classifier_order_and_edge_cases_witness :
    parse_value " .5 ".toList = Item.iF (5, 1) :=
  classifier_order_and_edge_cases.2.1 " .5 ".toList (5, 1) (by decide) (by decide)

theorem map_fst_entry {α β : Type} (l : List (Str × α)) (f : Str × α → β) :
    (l.map (fun kv => (kv.1, f kv))).map Prod.fst = l.map Prod.fst := by
  induction l <;> simp [*]

theorem lookupA_eq_none_of_not_mem {α : Type} (l : List (Str × α)) (k : Str)
    (h : k ∉ l.map Prod.fst) : lookupA l k = none := by
  induction l with
  | nil => rfl
  | cons a rest ih =>
    obtain ⟨k', v'⟩ := a
    simp only [List.map_cons, List.mem_cons, not_or] at h
    have hk : ¬ k' = k := fun hh => h.1 (by simp [hh])
    simp only [lookupA, hk, if_false]
    exact ih h.2

theorem expandFold (env : Str → Option Str) :
    ∀ (todo done : ArkSection),
      (((done ++ todo).map Prod.fst)).Nodup →
      todo.foldl (fun acc kv =>
          match kv.2 with
          | PyVal.one (Item.iS s) =>
            match envMatch (pyStrip s) with
            | some nm => updateA acc kv.1 (PyVal.one (Item.iS ((env nm).getD [])))
            | none => acc
          | _ => acc)
        (done.map (fun kv => (kv.1, expandValSpec env kv.2)) ++ todo)
      = (done ++ todo).map (fun kv => (kv.1, expandValSpec env kv.2)) := by
  intro todo
  induction todo with
  | nil =>
    intro done _
    simp
  | cons kv rest ih =>
    intro done hnd
    obtain ⟨k0, v0⟩ := kv
    have hnotin : k0 ∉ (done.map (fun kv => (kv.1, expandValSpec env kv.2))).map Prod.fst := by
      rw [map_fst_entry]
      have hx : ((done.map Prod.fst) ++ (k0 :: rest.map Prod.fst)).Nodup := by
        simpa using hnd
      intro hmem
      exact (List.disjoint_of_nodup_append hx) hmem (by simp)
    have hlook : lookupA (done.map (fun kv => (kv.1, expandValSpec env kv.2))) k0 = none :=
      lookupA_eq_none_of_not_mem _ _ hnotin
    have hstep :
        (match (k0, v0).2 with
          | PyVal.one (Item.iS s) =>
            match envMatch (pyStrip s) with
            | some nm =>
              updateA (done.map (fun kv => (kv.1, expandValSpec env kv.2)) ++ (k0, v0) :: rest)
                (k0, v0).1 (PyVal.one (Item.iS ((env nm).getD [])))
            | none => done.map (fun kv => (kv.1, expandValSpec env kv.2)) ++ (k0, v0) :: rest
          | _ => done.map (fun kv => (kv.1, expandValSpec env kv.2)) ++ (k0, v0) :: rest)
        = done.map (fun kv => (kv.1, expandValSpec env kv.2)) ++
            (k0, expandValSpec env v0) :: rest := by
      cases v0 with
      | many xs => rfl
      | one x =>
        cases x with
        | iB b => rfl
        | iI n => rfl
        | iF v => rfl
        | iS s =>
          cases hem : envMatch (pyStrip s) with
          | none =>
            have hv : expandValSpec env (PyVal.one (Item.iS s)) = PyVal.one (Item.iS s) := by
              simp [expandValSpec, hem]
            rw [hv]
            simp only [hem]
          | some nm =>
            have hv : expandValSpec env (PyVal.one (Item.iS s)) =
                PyVal.one (Item.iS ((env nm).getD [])) := by
              simp [expandValSpec, hem]
            rw [hv]
            simp only [hem]
            rw [updateA_append_notin _ _ _ _ hlook]
            congr 1
            simp [updateA]
    rw [List.foldl_cons, hstep]
    have hre : done.map (fun kv => (kv.1, expandValSpec env kv.2)) ++
        (k0, expandValSpec env (k0, v0).2) :: rest
        = (done ++ [(k0, v0)]).map (fun kv => (kv.1, expandValSpec env kv.2)) ++ rest := by
      simp
    rw [hre, ih (done ++ [(k0, v0)]) (by rwa [List.append_cons] at hnd)]
    simp

theorem expandSection_eq_map (env : Str → Option Str) (sec : ArkSection)
    (h : (sec.map Prod.fst).Nodup) :
    expandSection env sec = sec.map (fun kv => (kv.1, expandValSpec env kv.2)) := by
  have := expandFold env sec [] (by simpa using h)
  simpa [expandSection] using this

/-- Claim C7 (counterexample): the claim says only values that are *exactly*
a `${NAME}` placeholder are replaced and every other value is left
unchanged.  `ENV_RE.match` anchors only at the start, so the value
`"${A}tail"` — which is not exactly a placeholder — is nevertheless
replaced wholesale by the environment's value for `A`, dropping `"tail"`. -/
theorem env_expansion_rewrites_prefixed_value :
    expand_env_vars (fun n => if n = "A".toList then some "v".toList else none)
      [("S".toList, [("k".toList, PyVal.one (Item.iS "${A}tail".toList))])] =
      [("S".toList, [("k".toList, PyVal.one (Item.iS "v".toList))])] ∧
    PyVal.one (Item.iS "v".toList) ≠ PyVal.one (Item.iS "${A}tail".toList) ∧
    ¬ ∃ nm : Str, "${A}tail".toList = '$' :: '{' :: (nm ++ ['}']) := by
  refine ⟨by rfl, by decide, ?_⟩
  rintro ⟨nm, h⟩
  have h2 := congrArg List.getLast? h
  rw [show ('$' :: '{' :: (nm ++ ['}'])) = (('$' :: '{' :: nm) ++ ['}']) by simp] at h2
  rw [List.getLast?_concat] at h2
  have h3 : ("${A}tail".toList).getLast? = some 'l' := by rfl
  rw [h3] at h2
  exact absurd (Option.some.inj h2) (by decide)

/-- Claim C7 (amended): after load, the interpolation pass rewrites exactly
those string-valued options whose stripped value *starts with* a `${NAME}`
placeholder (`ENV_RE.match` does not anchor the end; trailing text is
discarded), replacing the whole value with the environment's value for
`NAME` — the empty string when `NAME` is absent — and leaves every other
value unchanged, preserving section and key structure. -/
theorem expand_env_vars_amended :
    ∀ (env : Str → Option Str) (cfg : ArkCfg),
      (∀ ns ∈ cfg, (ns.2.map Prod.fst).Nodup) →
      expand_env_vars env cfg =
        cfg.map (fun ns => (ns.1, ns.2.map (fun kv => (kv.1, expandValSpec env kv.2)))) := by
  intro env cfg h
  unfold expand_env_vars
  induction cfg with
  | nil => rfl
  | cons ns rest ih =>
    simp only [List.map_cons, List.cons.injEq]
    constructor
    · rw [expandSection_eq_map env ns.2 (h ns (by simp))]
    · exact ih (fun x hx => h x (by simp [hx]))

/-- Witness for C7's amended theorem at a concrete configuration: a section
holding an exact placeholder and an integer, under an environment defining
`HOME`. -/
theorem expand_env_vars_amended_witness :
    expand_env_vars (fun n => if n = "HOME".toList then some "h".toList else none)
      [("S".toList, [("a".toList, PyVal.one (Item.iS "${HOME}".toList)),
        ("b".toList, PyVal.one (Item.iI 2))])] =
      [("S".toList, [("a".toList, PyVal.one (Item.iS "${HOME}".toList)),
        ("b".toList, PyVal.one (Item.iI 2))])].map
        (fun ns => (ns.1, ns.2.map (fun kv =>
          (kv.1, expandValSpec (fun n => if n = "HOME".toList then some "h".toList else none)
            kv.2)))) :=
  expand_env_vars_amended _ _ (by decide)

theorem headerName_not_lbrack (l : Str) (h : l.head? ≠ some '[') : headerName l = none := by
  unfold headerName
  split
  · next rest => exact absurd rfl h
  · rfl

theorem readStep_skip (cur : Option Str) (cfg : ArkCfg) (line : Str)
    (h : isSkip (pyStrip line) = true) : readStep cur cfg line = .ok (cur, cfg) := by
  have h' : (pyStrip line = []) ∨ ((pyStrip line).head? = some ';') := by
    simpa [isSkip, List.isEmpty_iff] using h
  unfold readStep
  rcases h' with h1 | h1 <;> simp [h1]

theorem not_skip_parts (l : Str) (h : isSkip l = false) :
    l ≠ [] ∧ l.head? ≠ some ';' := by
  constructor
  · intro hh
    rw [hh] at h
    simp [isSkip] at h
  · intro hh
    simp [isSkip, hh] at h

theorem readStep_some_ok (cfg : ArkCfg) (n : Str) (line : Str) :
    ∃ m cfg2, readStep (some n) cfg line = .ok (some m, cfg2) := by
  by_cases hskip : isSkip (pyStrip line) = true
  · exact ⟨n, cfg, readStep_skip _ _ _ hskip⟩
  · obtain ⟨hne, hsemi⟩ := not_skip_parts (pyStrip line) (by simpa using hskip)
    cases hhd : headerName (pyStrip line) with
    | some name =>
      refine ⟨name, cfg, ?_⟩
      unfold readStep
      simp [hne, hsemi, hhd]
    | none =>
      cases hopt : optionMatch (pyStrip line) with
      | none =>
        refine ⟨n, cfg, ?_⟩
        unfold readStep
        simp [hne, hsemi, hhd, hopt]
      | some ov =>
        obtain ⟨r, hr⟩ := cfgSetOption_ok cfg n ov.1 ov.2
        refine ⟨n, r, ?_⟩
        unfold readStep
        simp [hne, hsemi, hhd, hopt, hr]

theorem readAux_some_ok :
    ∀ (lines : List Str) (cfg : ArkCfg) (n : Str),
      ∃ cfg', readAux (some n) cfg lines = .ok cfg' := by
  intro lines
  induction lines with
  | nil => exact fun cfg n => ⟨cfg, rfl⟩
  | cons line rest ih =>
    intro cfg n
    obtain ⟨m, cfg2, hsc⟩ := readStep_some_ok cfg n line
    obtain ⟨cfg', hrest⟩ := ih cfg2 m
    exact ⟨cfg', by simp only [readAux, hsc, hrest]⟩

theorem readAux_none_error_iff :
    ∀ (lines : List Str) (cfg : ArkCfg),
      (∃ e, readAux none cfg lines = Except.error e) ↔
        ∃ i, i < lines.length ∧ isBadOpt (pyStrip (lines.getD i [])) = true ∧
          ∀ j < i, headerName (pyStrip (lines.getD j [])) = none := by
  intro lines
  induction lines with
  | nil =>
    intro cfg
    simp [readAux]
  | cons line rest ih =>
    intro cfg
    by_cases hskip : isSkip (pyStrip line) = true
    · have hstep := readStep_skip none cfg line hskip
      have hred : readAux none cfg (line :: rest) = readAux none cfg rest := by
        simp only [readAux, hstep]
      rw [hred, ih cfg]
      have hhdr : headerName (pyStrip line) = none := by
        have h' : (pyStrip line = []) ∨ ((pyStrip line).head? = some ';') := by
          simpa [isSkip, List.isEmpty_iff] using hskip
        rcases h' with h1 | h1
        · rw [h1]; rfl
        · exact headerName_not_lbrack _ (by rw [h1]; simp)
      constructor
      · rintro ⟨i, hi, hbad, hprev⟩
        refine ⟨i + 1, by simpa using hi, by simpa using hbad, ?_⟩
        intro j hj
        cases j with
        | zero => simpa using hhdr
        | succ j' => simpa using hprev j' (by omega)
      · rintro ⟨i, hi, hbad, hprev⟩
        cases i with
        | zero =>
          exfalso
          simp only [List.getD_cons_zero, isBadOpt, hskip] at hbad
          simp at hbad
        | succ i' =>
          refine ⟨i', by simpa using hi, by simpa using hbad, ?_⟩
          intro j hj
          have := hprev (j + 1) (by omega)
          simpa using this
    · have hskip' : isSkip (pyStrip line) = false := by
        simpa using hskip
      have hne : pyStrip line ≠ [] := by
        intro hh
        rw [hh] at hskip'
        simp [isSkip] at hskip'
      have hsemi : (pyStrip line).head? ≠ some ';' := by
        intro hh
        simp [isSkip, hh] at hskip'
      cases hhd : headerName (pyStrip line) with
      | some name =>
        have hstep : readStep none cfg line = .ok (some name, cfg) := by
          unfold readStep
          simp [hne, hsemi, hhd]
        have hred : readAux none cfg (line :: rest) = readAux (some name) cfg rest := by
          simp only [readAux, hstep]
        obtain ⟨cfg', hok⟩ := readAux_some_ok rest cfg name
        constructor
        · rintro ⟨e, he⟩
          rw [hred, hok] at he
          exact Except.noConfusion he
        · rintro ⟨i, hi, hbad, hprev⟩
          cases i with
          | zero =>
            simp only [List.getD_cons_zero, isBadOpt, hhd] at hbad
            simp at hbad
          | succ i' =>
            have := hprev 0 (by omega)
            simp only [List.getD_cons_zero] at this
            rw [hhd] at this
            exact Option.noConfusion this
      | none =>
        have hstep : readStep none cfg line =
            .error ("No section for option: " ++ String.mk (pyStrip line)) := by
          unfold readStep
          simp [hne, hsemi, hhd]
        have hred : readAux none cfg (line :: rest) =
            .error ("No section for option: " ++ String.mk (pyStrip line)) := by
          simp only [readAux, hstep]
        constructor
        · intro _
          refine ⟨0, by simp, ?_, by omega⟩
          simp [isBadOpt, hskip', hhd]
        · intro _
          exact ⟨_, hred⟩

theorem readAux_none_first_bad :
    ∀ (lines : List Str) (cfg : ArkCfg) (i : Nat), i < lines.length →
      isBadOpt (pyStrip (lines.getD i [])) = true →
      (∀ j < i, isSkip (pyStrip (lines.getD j [])) = true) →
      readAux none cfg lines =
        .error ("No section for option: " ++ String.mk (pyStrip (lines.getD i []))) := by
  intro lines
  induction lines with
  | nil =>
    intro cfg i hi
    simp at hi
  | cons line rest ih =>
    intro cfg i hi hbad hprev
    cases i with
    | zero =>
      simp only [List.getD_cons_zero] at hbad ⊢
      have hskip' : isSkip (pyStrip line) = false := by
        by_contra hc
        have : isSkip (pyStrip line) = true := by simpa using hc
        simp [isBadOpt, this] at hbad
      have hne : pyStrip line ≠ [] := by
        intro hh
        rw [hh] at hskip'
        simp [isSkip] at hskip'
      have hsemi : (pyStrip line).head? ≠ some ';' := by
        intro hh
        simp [isSkip, hh] at hskip'
      have hhd : headerName (pyStrip line) = none := by
        have := hbad
        simp only [isBadOpt, Bool.and_eq_true, Option.isNone_iff_eq_none] at this
        exact this.2
      have hstep : readStep none cfg line =
          .error ("No section for option: " ++ String.mk (pyStrip line)) := by
        unfold readStep
        simp [hne, hsemi, hhd]
      simp only [readAux, hstep]
    | succ i' =>
      have hs0 := hprev 0 (by omega)
      simp only [List.getD_cons_zero] at hs0
      have hstep := readStep_skip none cfg line hs0
      simp only [readAux, hstep, List.getD_cons_succ]
      exact ih cfg i' (by simpa using hi) (by simpa using hbad)
        (fun j hj => by simpa using hprev (j + 1) (by omega))

/-- Claim C8: during `read`, blank and `';'` lines are skipped and a
`[section]` line opens a section; the parse raises an error if and only if
some stripped line is non-blank, non-comment and non-header while no header
line precedes it — and the first such line is named in the error.  Once a
header has been seen, no subsequent line ever raises. -/
theorem read_error_iff_option_before_header :
    ∀ lines : List Str,
      ((∃ e, readLines lines = Except.error e) ↔
        ∃ i, i < lines.length ∧ isBadOpt (pyStrip (lines.getD i [])) = true ∧
          ∀ j < i, headerName (pyStrip (lines.getD j [])) = none) ∧
      (∀ i, i < lines.length → isBadOpt (pyStrip (lines.getD i [])) = true →
        (∀ j < i, isSkip (pyStrip (lines.getD j [])) = true) →
        readLines lines =
          .error ("No section for option: " ++ String.mk (pyStrip (lines.getD i [])))) := by
  intro lines
  exact ⟨readAux_none_error_iff lines [], fun i hi hbad hprev =>
    readAux_none_first_bad lines [] i hi hbad hprev⟩

/-- Witness for C8: on `["x=1", "[A]"]` the bad first line is reported
(no header precedes it), via both parts of the theorem. -/
theorem read_error_iff_option_before_header_witness :
    (∃ e, readLines ["x=1".toList, "[A]".toList] = Except.error e) ∧
    readLines ["x=1".toList, "[A]".toList] =
      .error ("No section for option: " ++ String.mk (pyStrip ("x=1".toList))) := by
  constructor
  · exact (read_error_iff_option_before_header ["x=1".toList, "[A]".toList]).1.2
      ⟨0, by decide, by decide, by omega⟩
  · exact (read_error_iff_option_before_header ["x=1".toList, "[A]".toList]).2 0
      (by decide) (by decide) (by omega)

/-! ## Line-level lemmas for the dump/read round trip -/

theorem goodKey_parts (k : Str) (h : goodKey k = true) :
    pyStrip k = k ∧ '=' ∉ k ∧ '\n' ∉ k ∧ k.head? ≠ some ';' ∧ k.head? ≠ some '[' := by
  simp only [goodKey, Bool.and_eq_true] at h
  obtain ⟨⟨⟨⟨h1, h2⟩, h3⟩, h4⟩, h5⟩ := h
  refine ⟨eq_of_beq h1, ?_, ?_, ?_, ?_⟩
  · intro hm
    have hc : List.contains k '=' = true := List.elem_iff.2 hm
    rw [hc] at h2
    simp at h2
  · intro hm
    have hc : List.contains k '\n' = true := List.elem_iff.2 hm
    rw [hc] at h3
    simp at h3
  · intro hm
    rw [hm] at h4
    simp at h4
  · intro hm
    rw [hm] at h5
    simp at h5

theorem goodVal_parts (v : PyVal) (h : goodVal v = true) :
    ∃ x, v = .one x ∧ parse_value (itemRender x) = x ∧ '\n' ∉ itemRender x ∧
      pyStrip (itemRender x) = itemRender x := by
  cases v with
  | many xs => simp [goodVal] at h
  | one x =>
    refine ⟨x, rfl, ?_⟩
    simp only [goodVal, Bool.and_eq_true] at h
    obtain ⟨⟨h1, h2⟩, h3⟩ := h
    refine ⟨eq_of_beq h1, ?_, eq_of_beq h3⟩
    intro hm
    have hc : List.contains (itemRender x) '\n' = true := List.elem_iff.2 hm
    rw [hc] at h2
    simp at h2

theorem option_line_head (k v : Str) :
    ∀ c, (k ++ '=' :: v).head? = some c → c = '=' ∨ k.head? = some c := by
  intro c hc
  cases k with
  | nil => exact Or.inl (by simpa using hc.symm)
  | cons a t => exact Or.inr (by simpa using hc)

theorem option_line_strip (k v : Str) (hk : pyStrip k = k) (hv : pyStrip v = v) :
    pyStrip (k ++ '=' :: v) = k ++ '=' :: v := by
  apply pyStrip_eq_self_of
  · intro c hc
    rcases option_line_head k v c hc with rfl | hh
    · decide
    · exact stripStable_head k hk c hh
  · intro c hc
    have hrev : (k ++ '=' :: v).reverse = v.reverse ++ '=' :: k.reverse := by
      simp
    rw [hrev] at hc
    rcases option_line_head v.reverse k.reverse c hc with rfl | hh
    · decide
    · exact stripStable_last v hv c hh

theorem option_line_match (k v : Str) (hkeq : '=' ∉ k)
    (hk : pyStrip k = k) (hv : pyStrip v = v) :
    optionMatch (k ++ '=' :: v) = some (k, v) := by
  have hmem : '=' ∈ k ++ '=' :: v := by simp
  have hsplit := takeWhile_app (fun c => c ≠ '=') k '=' v
    (fun x hx => decide_eq_true (fun hh => hkeq (hh ▸ hx))) (by decide)
  unfold optionMatch
  rw [if_pos (List.elem_iff.2 hmem)]
  rw [hsplit.1, hsplit.2]
  simp [hk, hv]

theorem headerName_roundtrip (name : Str) (h : name ≠ []) :
    headerName ('[' :: (name ++ [']'])) = some name := by
  simp only [headerName]
  have hrr : (name ++ [']']).reverse = ']' :: name.reverse := by simp
  rw [hrr]
  have hcon : (']' :: name.reverse).contains ']' = true := by simp
  rw [if_pos hcon]
  have hdw : (']' :: name.reverse).dropWhile (fun c => c ≠ ']') = ']' :: name.reverse := by
    rw [List.dropWhile_cons]
    simp
  rw [hdw]
  simp [h]

theorem header_line_strip (name : Str) :
    pyStrip ('[' :: (name ++ [']'])) = '[' :: (name ++ [']']) := by
  apply pyStrip_eq_self_of
  · intro c hc
    have : c = '[' := by simpa using hc.symm
    subst this
    decide
  · intro c hc
    have hrev : ('[' :: (name ++ [']'])).reverse = ']' :: (name.reverse ++ ['[']) := by
      simp
    rw [hrev] at hc
    have : c = ']' := by simpa using hc.symm
    subst this
    decide

theorem readStep_header_line (cur : Option Str) (acc : ArkCfg) (name : Str)
    (h : name ≠ []) :
    readStep cur acc ('[' :: (name ++ [']'])) = .ok (some name, acc) := by
  unfold readStep
  rw [header_line_strip name]
  have h1 : ¬ ('[' :: (name ++ [']'])) = [] := by simp
  have h2 : ¬ ('[' :: (name ++ [']'])).head? = some ';' := by simp
  simp [h1, h2, headerName_roundtrip name h]

theorem goodVal_one_parts (x : Item) (h : goodVal (.one x) = true) :
    parse_value (itemRender x) = x ∧ '\n' ∉ itemRender x ∧
      pyStrip (itemRender x) = itemRender x := by
  obtain ⟨x', hx', hp⟩ := goodVal_parts _ h
  have hxx : x = x' := by simpa using hx'
  subst hxx
  exact hp

theorem cfgSetOption_existing (acc : ArkCfg) (name k : Str) (x : Item)
    (processed : ArkSection)
    (hacc : lookupA acc name = some processed)
    (hnew : lookupA processed k = none)
    (hv1 : parse_value (itemRender x) = x) :
    cfgSetOption acc name k (itemRender x) =
      .ok (updateA acc name (processed ++ [(k, .one x)])) := by
  have hset : setItem processed k (.one (.iS (itemRender x))) =
      .ok (processed ++ [(k, .one x)]) := by
    rw [setItem_str_new processed k (itemRender x) hnew, hv1]
  simp only [cfgSetOption, hacc, hset]

theorem cfgSetOption_new (acc : ArkCfg) (name k : Str) (x : Item)
    (hacc : lookupA acc name = none)
    (hv1 : parse_value (itemRender x) = x) :
    cfgSetOption acc name k (itemRender x) = .ok (acc ++ [(name, [(k, .one x)])]) := by
  have hset : setItem [] k (.one (.iS (itemRender x))) = .ok [(k, .one x)] := by
    rw [setItem_str_new [] k (itemRender x) rfl, hv1]
    rfl
  simp only [cfgSetOption, hacc, hset]

theorem readStep_option_line (acc : ArkCfg) (name k : Str) (x : Item) (r : ArkCfg)
    (hk : goodKey k = true)
    (hv : goodVal (.one x) = true)
    (hcfg : cfgSetOption acc name k (itemRender x) = .ok r) :
    readStep (some name) acc (k ++ '=' :: itemRender x) = .ok (some name, r) := by
  obtain ⟨hk1, hk2, hk3, hk4, hk5⟩ := goodKey_parts k hk
  obtain ⟨hv1, hv2, hv3⟩ := goodVal_one_parts x hv
  have hstrip := option_line_strip k (itemRender x) hk1 hv3
  have hne : ¬ (k ++ '=' :: itemRender x) = [] := by simp
  have hsemi : ¬ (k ++ '=' :: itemRender x).head? = some ';' := by
    intro hc
    rcases option_line_head k (itemRender x) ';' hc with hh | hh
    · exact absurd hh.symm (by decide)
    · exact hk4 hh
  have hhdr : headerName (k ++ '=' :: itemRender x) = none := by
    apply headerName_not_lbrack
    intro hc
    rcases option_line_head k (itemRender x) '[' hc with hh | hh
    · exact absurd hh.symm (by decide)
    · exact hk5 hh
  have hopt := option_line_match k (itemRender x) hk2 hk1 hv3
  unfold readStep
  rw [hstrip]
  simp [hne, hsemi, hhdr, hopt, hcfg]
  exact fun hc => absurd hc hk4

theorem sectionDumpLines_cons_one (k : Str) (x : Item) (rest : ArkSection) :
    sectionDumpLines ((k, PyVal.one x) :: rest) =
      (k ++ '=' :: itemRender x) :: sectionDumpLines rest := by
  simp [sectionDumpLines]

theorem readAux_options :
    ∀ (items : ArkSection) (acc : ArkCfg) (name : Str) (processed : ArkSection)
      (rest : List Str),
      lookupA acc name = some processed →
      (∀ kv ∈ items, goodKey kv.1 = true ∧ goodVal kv.2 = true) →
      ((processed.map Prod.fst ++ items.map Prod.fst).Nodup) →
      readAux (some name) acc (sectionDumpLines items ++ rest) =
        readAux (some name) (updateA acc name (processed ++ items)) rest := by
  intro items
  induction items with
  | nil =>
    intro acc name processed rest hacc _ _
    rw [List.append_nil, updateA_self acc name processed hacc]
    simp [sectionDumpLines]
  | cons kv items' ih =>
    intro acc name processed rest hacc hgood hnd
    obtain ⟨k, v⟩ := kv
    obtain ⟨hk, hv⟩ := hgood (k, v) (by simp)
    obtain ⟨x, hx, _⟩ := goodVal_parts v hv
    subst hx
    rw [sectionDumpLines_cons_one, List.cons_append]
    have hnew : lookupA processed k = none := by
      apply lookupA_eq_none_of_not_mem
      have hd := List.disjoint_of_nodup_append hnd
      intro hm
      exact hd hm (by simp)
    have hcfg := cfgSetOption_existing acc name k x processed hacc hnew
      (goodVal_one_parts x hv).1
    have hstep := readStep_option_line acc name k x _ hk hv hcfg
    have hred : readAux (some name) acc
        ((k ++ '=' :: itemRender x) :: (sectionDumpLines items' ++ rest)) =
        readAux (some name) (updateA acc name (processed ++ [(k, PyVal.one x)]))
          (sectionDumpLines items' ++ rest) := by
      simp only [readAux, hstep]
    rw [hred]
    have hacc' : lookupA (updateA acc name (processed ++ [(k, PyVal.one x)])) name =
        some (processed ++ [(k, PyVal.one x)]) :=
      lookupA_updateA_self acc name _ (by simp [hasKey, hacc])
    rw [ih _ name (processed ++ [(k, PyVal.one x)]) rest hacc'
      (fun kv hkv => hgood kv (by simp [hkv]))
      (by rw [List.map_append, List.append_assoc]; exact hnd)]
    rw [updateA_updateA, List.append_assoc]
    rfl

theorem readAux_sections :
    ∀ (secs : ArkCfg) (acc : ArkCfg) (cur : Option Str),
      (∀ ns ∈ secs, goodName ns.1 = true ∧ ns.2 ≠ [] ∧ (ns.2.map Prod.fst).Nodup ∧
        ∀ kv ∈ ns.2, goodKey kv.1 = true ∧ goodVal kv.2 = true) →
      ((acc.map Prod.fst ++ secs.map Prod.fst).Nodup) →
      readAux cur acc (configDumpLinesFlat secs) = .ok (acc ++ secs) := by
  intro secs
  induction secs with
  | nil =>
    intro acc cur _ _
    simp [configDumpLinesFlat, readAux]
  | cons ns rest ih =>
    intro acc cur hgood hnd
    obtain ⟨name, sec⟩ := ns
    obtain ⟨hname, hsecne, hsecnd, hkvs⟩ := hgood (name, sec) (by simp)
    have hnameNe : name ≠ [] := by
      intro hh
      rw [hh] at hname
      simp [goodName] at hname
    have hflat : configDumpLinesFlat ((name, sec) :: rest) =
        ('[' :: (name ++ [']'])) ::
          (sectionDumpLines sec ++ ([] : Str) :: configDumpLinesFlat rest) := by
      simp [configDumpLinesFlat]
    rw [hflat]
    have hstep := readStep_header_line cur acc name hnameNe
    have hred : readAux cur acc (('[' :: (name ++ [']'])) ::
        (sectionDumpLines sec ++ ([] : Str) :: configDumpLinesFlat rest)) =
        readAux (some name) acc
          (sectionDumpLines sec ++ ([] : Str) :: configDumpLinesFlat rest) := by
      simp only [readAux, hstep]
    rw [hred]
    have hnameNotIn : lookupA acc name = none := by
      apply lookupA_eq_none_of_not_mem
      have hd := List.disjoint_of_nodup_append hnd
      intro hm
      exact hd hm (by simp)
    cases sec with
    | nil => exact absurd rfl hsecne
    | cons kv0 sec' =>
      obtain ⟨k0, v0⟩ := kv0
      obtain ⟨hk0, hv0⟩ := hkvs (k0, v0) (by simp)
      obtain ⟨x0, hx0, _⟩ := goodVal_parts v0 hv0
      subst hx0
      rw [sectionDumpLines_cons_one, List.cons_append]
      have hcfg0 := cfgSetOption_new acc name k0 x0 hnameNotIn
        (goodVal_one_parts x0 hv0).1
      have hstep0 := readStep_option_line acc name k0 x0 _ hk0 hv0 hcfg0
      have hred0 : readAux (some name) acc ((k0 ++ '=' :: itemRender x0) ::
          (sectionDumpLines sec' ++ ([] : Str) :: configDumpLinesFlat rest)) =
          readAux (some name) (acc ++ [(name, [(k0, PyVal.one x0)])])
            (sectionDumpLines sec' ++ ([] : Str) :: configDumpLinesFlat rest) := by
        simp only [readAux, hstep0]
      rw [hred0]
      have hacc1 : lookupA (acc ++ [(name, [(k0, PyVal.one x0)])]) name =
          some [(k0, PyVal.one x0)] := by
        rw [lookupA_append_right _ _ _ hnameNotIn]
        simp [lookupA]
      rw [readAux_options sec' _ name [(k0, PyVal.one x0)] _ hacc1
        (fun kv hkv => hkvs kv (by simp [hkv]))
        (by simpa using hsecnd)]
      have hupd : updateA (acc ++ [(name, [(k0, PyVal.one x0)])]) name
          ([(k0, PyVal.one x0)] ++ sec') = acc ++ [(name, (k0, PyVal.one x0) :: sec')] := by
        rw [updateA_append_notin _ _ _ _ hnameNotIn]
        simp [updateA]
      rw [hupd]
      have hskipstep := readStep_skip (some name)
        (acc ++ [(name, (k0, PyVal.one x0) :: sec')]) ([] : Str) (by decide)
      have hblank : readAux (some name) (acc ++ [(name, (k0, PyVal.one x0) :: sec')])
          (([] : Str) :: configDumpLinesFlat rest) =
          readAux (some name) (acc ++ [(name, (k0, PyVal.one x0) :: sec')])
            (configDumpLinesFlat rest) := by
        simp only [readAux, hskipstep]
      rw [hblank]
      rw [ih (acc ++ [(name, (k0, PyVal.one x0) :: sec')]) (some name)
        (fun ns hns => hgood ns (by simp [hns]))
        (by rw [List.map_append, List.append_assoc]; exact hnd)]
      simp

theorem sectionDumpLines_ne_nil (sec : ArkSection) (h1 : sec ≠ [])
    (h2 : ∀ kv ∈ sec, goodVal kv.2 = true) : sectionDumpLines sec ≠ [] := by
  cases sec with
  | nil => exact absurd rfl h1
  | cons kv rest =>
    obtain ⟨k, v⟩ := kv
    obtain ⟨x, hx, _⟩ := goodVal_parts v (h2 (k, v) (by simp))
    subst hx
    rw [sectionDumpLines_cons_one]
    simp

theorem splitNl_join_append (ls : List Str) (X : Str)
    (h : ∀ l ∈ ls, '\n' ∉ l) (hne : ls ≠ []) :
    splitNl (joinNl ls ++ '\n' :: X) = ls ++ splitNl X := by
  induction ls with
  | nil => exact absurd rfl hne
  | cons a rest ih =>
    cases rest with
    | nil =>
      rw [show joinNl [a] = a from rfl]
      rw [splitNl_append_nl a X (h a (by simp))]
      rfl
    | cons b t =>
      rw [joinNl_cons a _ (by simp), List.append_assoc, List.cons_append,
        splitNl_append_nl a _ (h a (by simp))]
      rw [ih (fun l hl => h l (by simp [hl])) (by simp)]
      rfl

theorem header_noNl (n : Str) (h : '\n' ∉ n) : '\n' ∉ ('[' :: (n ++ [']'])) := by
  intro hm
  rcases List.mem_cons.1 hm with hh | hh
  · exact absurd hh (by decide)
  · rcases List.mem_append.1 hh with hh2 | hh2
    · exact h hh2
    · simp at hh2

theorem goodName_noNl (n : Str) (h : goodName n = true) : '\n' ∉ n := by
  simp only [goodName, Bool.and_eq_true] at h
  intro hm
  have hc : List.contains n '\n' = true := List.elem_iff.2 hm
  rw [hc] at h
  simp at h

theorem sectionDumpLines_noNl (sec : ArkSection)
    (h : ∀ kv ∈ sec, goodKey kv.1 = true ∧ goodVal kv.2 = true) :
    ∀ l ∈ sectionDumpLines sec, '\n' ∉ l := by
  intro l hl
  simp only [sectionDumpLines, List.mem_flatten, List.mem_map] at hl
  obtain ⟨ls, ⟨kv, hkv, rfl⟩, hlin⟩ := hl
  obtain ⟨hk, hv⟩ := h kv hkv
  obtain ⟨x, hx, hv1, hv2, hv3⟩ := goodVal_parts kv.2 hv
  rw [hx] at hlin
  simp only [List.mem_singleton] at hlin
  subst hlin
  obtain ⟨hk1, hk2, hk3, hk4, hk5⟩ := goodKey_parts kv.1 hk
  intro hm
  rcases List.mem_append.1 hm with hh | hh
  · exact hk3 hh
  · rcases List.mem_cons.1 hh with hh2 | hh2
    · exact absurd hh2 (by decide)
    · exact hv2 hh2

theorem splitNl_configDump :
    ∀ (cfg : ArkCfg), cfg ≠ [] →
      (∀ ns ∈ cfg, '\n' ∉ ns.1 ∧ sectionDumpLines ns.2 ≠ [] ∧
        ∀ l ∈ sectionDumpLines ns.2, '\n' ∉ l) →
      splitNl (configDump cfg) = configDumpLinesFlat cfg := by
  intro cfg
  induction cfg with
  | nil => exact fun h _ => absurd rfl h
  | cons ns rest ih =>
    intro _ h
    obtain ⟨hn, hsd, hlines⟩ := h ns (by simp)
    have hheader := header_noNl ns.1 hn
    cases rest with
    | nil =>
      have e : configDump [ns] =
          ('[' :: (ns.1 ++ [']'])) ++ '\n' :: (sectionDump ns.2 ++ '\n' :: ([] : Str)) := by
        simp [configDump, joinNl]
      rw [e, splitNl_append_nl _ _ hheader]
      rw [show (sectionDump ns.2 : Str) = joinNl (sectionDumpLines ns.2) from rfl]
      rw [splitNl_join_append _ _ hlines hsd]
      simp [configDumpLinesFlat, splitNl]
    | cons b t =>
      have hA : ([('[' :: ns.1 ++ [']']), sectionDump ns.2, ([] : Str)] : List Str) ≠ [] := by
        simp
      have hP : (((b :: t).map (fun ns =>
          [('[' :: ns.1 ++ [']']), sectionDump ns.2, ([] : Str)])).flatten) ≠ [] := by
        simp
      have e : configDump (ns :: b :: t) =
          ('[' :: (ns.1 ++ [']'])) ++ '\n' ::
            (sectionDump ns.2 ++ '\n' :: ('\n' :: configDump (b :: t))) := by
        show joinNl (([('[' :: ns.1 ++ [']']), sectionDump ns.2, ([] : Str)] ++
          ((b :: t).map (fun ns =>
            [('[' :: ns.1 ++ [']']), sectionDump ns.2, ([] : Str)])).flatten) : List Str) = _
        rw [joinNl_append _ _ hA hP]
        simp [joinNl, configDump, List.append_assoc]
      rw [e, splitNl_append_nl _ _ hheader]
      rw [show (sectionDump ns.2 : Str) = joinNl (sectionDumpLines ns.2) from rfl]
      rw [splitNl_join_append _ _ hlines hsd]
      have eb : splitNl ('\n' :: configDump (b :: t)) = ([] : Str) :: splitNl (configDump (b :: t)) := by
        simp [splitNl]
      rw [eb, ih (by simp) (fun a ha => h a (by simp [ha]))]
      simp [configDumpLinesFlat]

/-- Claim C2 (counterexample): a document whose textual form has no
duplicate keys need not round-trip.  A one-element Python list stored under
a key dumps as a single `key=value` line (duplicate-free text), but reading
that text back yields a scalar, not a one-element list, so the structures
differ. -/
theorem dump_read_counterexample :
    configDump [("A".toList, [("k".toList, PyVal.many [Item.iS "x".toList])])] =
      "[A]\nk=x\n".toList ∧
    splitNl (configDump [("A".toList, [("k".toList, PyVal.many [Item.iS "x".toList])])]) =
      ["[A]".toList, "k=x".toList, ([] : Str)] ∧
    readText (configDump [("A".toList, [("k".toList, PyVal.many [Item.iS "x".toList])])]) =
      Except.ok [("A".toList, [("k".toList, PyVal.one (Item.iS "x".toList))])] ∧
    [("A".toList, [("k".toList, PyVal.one (Item.iS "x".toList))])] ≠
      [("A".toList, [("k".toList, PyVal.many [Item.iS "x".toList])])] := by
  exact ⟨rfl, rfl, rfl, by decide⟩

/-- Claim C2 (amended): `read` after `dump` reproduces the document exactly
— same section names, keys and values in the same order — for every
document with distinct, nonempty, newline-free section names, nonempty
sections, distinct well-formed keys (strip-stable, no `'='` or newline, not
starting with `';'` or `'['`), and scalar values whose rendered token is
newline-free, strip-stable and re-classifies to the same value.  (The
counterexample forces the scalar-value restriction; empty sections and
newline/`'='`-bearing keys or values fail for the same reason.) -/
theorem dump_read_roundtrip :
    ∀ cfg : ArkCfg, GoodCfg cfg → readText (configDump cfg) = Except.ok cfg := by
  intro cfg h
  cases cfg with
  | nil => rfl
  | cons ns rest =>
    have hsd : ∀ a ∈ ns :: rest, sectionDumpLines a.2 ≠ [] := by
      intro a ha
      obtain ⟨_, hne, _, hkvs⟩ := h.2 a ha
      exact sectionDumpLines_ne_nil a.2 hne (fun kv hkv => (hkvs kv hkv).2)
    have h2 : splitNl (configDump (ns :: rest)) = configDumpLinesFlat (ns :: rest) := by
      apply splitNl_configDump (ns :: rest) (by simp)
      intro a ha
      obtain ⟨hname, hne, _, hkvs⟩ := h.2 a ha
      exact ⟨goodName_noNl a.1 hname, sectionDumpLines_ne_nil a.2 hne
        (fun kv hkv => (hkvs kv hkv).2), sectionDumpLines_noNl a.2 hkvs⟩
    unfold readText readLines
    rw [h2]
    have h3 := readAux_sections (ns :: rest) [] none (fun a ha => h.2 a ha)
      (by simpa using h.1)
    simpa using h3

/-- Witness for C2's amended round trip at a concrete two-option document
(an integer and a boolean under distinct keys of one section). -/
theorem dump_read_roundtrip_witness :
    readText (configDump [("A".toList,
      [("Foo".toList, PyVal.one (Item.iI 1)), ("Bar".toList, PyVal.one (Item.iB true))])]) =
      Except.ok [("A".toList,
      [("Foo".toList, PyVal.one (Item.iI 1)), ("Bar".toList, PyVal.one (Item.iB true))])] :=
  dump_read_roundtrip _ (by constructor <;> decide)
